import Mathlib

/-!
Verification development for the Input-System normalization-and-load pipeline
(`ibot-v2`).  The Python sources `parser.py`, `column_mapper.py` and
`bigquery_loader.py` are shallowly embedded below: pure functions become Lean
functions over `String`/`List`/`ℚ`, Python dicts become insertion-ordered
association lists, and code that can raise returns `Except`/`Option`.
Python `float`/`Decimal` arithmetic is modelled with exact rationals.
-/

namespace InputSystem

/-! ## String helpers

Python's `str.strip()`, `str.lower()`, `str.startswith` and substring
containment, implemented over `List Char` so that every definition reduces in
the kernel.  `Char.isWhitespace` covers the ASCII whitespace characters that
occur in header and cell text.
-/

/-- Drop whitespace from both ends of a character list (Python `str.strip()`). -/
def trimChars (l : List Char) : List Char :=
  ((l.dropWhile Char.isWhitespace).reverse.dropWhile Char.isWhitespace).reverse

/-- Python `str.strip()`. -/
def strStrip (s : String) : String := ⟨trimChars s.data⟩

/-- Python `str.lower()` (ASCII, which covers all headers in the configs). -/
def strLower (s : String) : String := ⟨s.data.map Char.toLower⟩

/-- Whether `needle` is a prefix of `hay` (used for `str.startswith`). -/
def listIsPrefixL : List Char → List Char → Bool
  | [], _ => true
  | _ :: _, [] => false
  | a :: as, b :: bs => a = b && listIsPrefixL as bs

/-- Python `key.startswith(pat)`. -/
def strStartsWithL (key pat : String) : Bool := listIsPrefixL pat.data key.data

/-- Python substring containment `needle in hay`. -/
def containsSub (needle : List Char) : List Char → Bool
  | [] => listIsPrefixL needle []
  | c :: t => listIsPrefixL needle (c :: t) || containsSub needle t

/-- Python `needle in hay` on strings. -/
def strContains (hay needle : String) : Bool := containsSub needle.data hay.data

/-- Numeric value of a (non-empty) list of decimal digit characters. -/
def digitsToNat (l : List Char) : Nat :=
  l.foldl (fun a c => 10 * a + (c.toNat - 48)) 0

/-! ### Kernel-reducible rational arithmetic

`Rat.add`, `Rat.mul` and `Rat.inv` are `@[irreducible]`, which blocks
evaluation by `decide`.  The embeddings below therefore use the following
`mkRat`-based operations, proved equal to the standard ones. -/

/-- Rational value of a natural number, via `mkRat` so the kernel can
evaluate it. -/
def natQ (n : Nat) : ℚ := mkRat (Int.ofNat n) 1

/-- Kernel-reducible addition on `ℚ`. -/
def qAdd (a b : ℚ) : ℚ :=
  mkRat (a.num * Int.ofNat b.den + b.num * Int.ofNat a.den) (a.den * b.den)

/-- Kernel-reducible multiplication on `ℚ`. -/
def qMul (a b : ℚ) : ℚ := mkRat (a.num * b.num) (a.den * b.den)

/-- Kernel-reducible inverse on `ℚ`. -/
def qInv (a : ℚ) : ℚ :=
  if 0 ≤ a.num then mkRat (Int.ofNat a.den) a.num.toNat
  else mkRat (-(Int.ofNat a.den)) (-a.num).toNat

/-- Kernel-reducible division on `ℚ`. -/
def qDiv (a b : ℚ) : ℚ := qMul a (qInv b)

/-- Positive powers of ten as rationals, structurally recursive so the kernel
can evaluate it. -/
def pow10 : Nat → ℚ
  | 0 => natQ 1
  | k + 1 => qMul (pow10 k) (natQ 10)


/-! ## Cell / Number Normalizer (`parser.py`)

`parse_number` (parser.py lines 111-165) together with the fixed-point
decimal syntax accepted by Python's `Decimal`/`float` constructors on the
strings this pipeline produces (optional sign, digits, at most one dot).
-/

/-- Parse an unsigned fixed-point literal: `digits`, `digits.digits`,
`.digits` or `digits.`; at least one digit overall, nothing left over. -/
def parseFixedUnsigned (l : List Char) : Option ℚ :=
  let intPart := l.takeWhile Char.isDigit
  let rest := l.dropWhile Char.isDigit
  match rest with
  | [] => if intPart = [] then none else some (natQ (digitsToNat intPart))
  | '.' :: fracRest =>
    let fracPart := fracRest.takeWhile Char.isDigit
    if fracRest.dropWhile Char.isDigit = [] then
      if intPart = [] ∧ fracPart = [] then none
      else some (qAdd (natQ (digitsToNat intPart))
                      (qDiv (natQ (digitsToNat fracPart)) (pow10 fracPart.length)))
    else none
  | _ => none

/-- Parse a signed fixed-point literal, the common core of the strings fed to
`Decimal(...)` in `parse_number` and `float(...)` in `apply_sum_starts_with`.
Exotic forms (exponents, `nan`, `inf`) never arise on this pipeline's inputs
and are not modelled; they would be rejected here. -/
def parseFixed (l : List Char) : Option ℚ :=
  match l with
  | '-' :: rest => (parseFixedUnsigned rest).map (fun q => -q)
  | '+' :: rest => parseFixedUnsigned rest
  | _ => parseFixedUnsigned l

/-- Characters removed by `re.sub(r'[Rp\s\$€£¥]', '', value_str)`. -/
def isCurrencyChar (c : Char) : Bool :=
  c = 'R' || c = 'p' || c.isWhitespace || c = '$' || c = '€' || c = '£' || c = '¥'

/-- Null-sentinel tokens treated as missing by `parse_number`. -/
def numberSentinels : List String := ["-", "—", "–", "N/A", "n/a", "#N/A"]

/-- Shallow embedding of `parse_number` (parser.py lines 111-165) on string
input.  The already-numeric pass-through branch is outside the string domain.
Returns the numeric value as an exact rational (the Python `int`/`float`
distinction is value-preserving). -/
def parse_number (value : String) : Option ℚ :=
  let s₀ := strStrip value
  if s₀ = "" then none
  else if s₀ ∈ numberSentinels then none
  else
    let l₁ := s₀.data.filter (fun c => ¬ isCurrencyChar c)
    let isPercentage := l₁.contains '%'
    let l₂ := l₁.filter (fun c => ¬ c = '%')
    let dotCount := l₂.count '.'
    let commaCount := l₂.count ','
    let dotPos := l₂.findIdx (fun c => c = '.')
    let commaPos := l₂.findIdx (fun c => c = ',')
    let l₃ :=
      if dotCount > 1 ∨ (dotCount = 1 ∧ commaCount = 1 ∧ dotPos < commaPos) then
        -- Indonesian format: strip thousand dots, comma becomes decimal dot
        (l₂.filter (fun c => ¬ c = '.')).map (fun c => if c = ',' then '.' else c)
      else if commaCount > 1 ∨ (commaCount = 1 ∧ dotCount = 0) then
        if commaCount = 1 ∧ ((l₂.dropWhile (fun c => ¬ c = ',')).drop 1).length = 3 then
          l₂.filter (fun c => ¬ c = ',')      -- thousands separator
        else
          l₂.map (fun c => if c = ',' then '.' else c)
      else l₂
    match parseFixed l₃ with
    | none => none
    | some q => some (if isPercentage then qDiv q (natQ 100) else q)

/-! ## Column Mapping Engine (`column_mapper.py`)

Headers are compared after `normalize_header` (lowercase + trim).  Python
dicts keyed by header text are embedded as insertion-ordered association
lists `List (String × List Nat)`, which preserves the iteration order the
code relies on.
-/

/-- Embedding of `normalize_header` (column_mapper.py lines 32-36). -/
def normalize_header (header : String) : String :=
  if header = "" then "" else strStrip (strLower header)

/-- Append index `i` to the entry for key `k`, creating the entry at the end
if absent — the behaviour of `header_map[key].append(idx)` on a Python dict. -/
def hmAdd : List (String × List Nat) → String → Nat → List (String × List Nat)
  | [], k, i => [(k, [i])]
  | (k', v) :: rest, k, i =>
    if k' = k then (k', v ++ [i]) :: rest else (k', v) :: hmAdd rest k i

/-- Loop body of `build_source_header_map` over the enumerated headers. -/
def buildSourceHeaderMapAux : List String → Nat → List (String × List Nat) → List (String × List Nat)
  | [], _, m => m
  | h :: t, idx, m =>
    let key := normalize_header h
    buildSourceHeaderMapAux t (idx + 1) (if key = "" then m else hmAdd m key idx)

/-- Embedding of `build_source_header_map` (column_mapper.py lines 39-62):
normalized header text → column indices in left-to-right order. -/
def build_source_header_map (headers : List String) : List (String × List Nat) :=
  buildSourceHeaderMapAux headers 0 []

/-! ### Dynamic header detection (`detect_dynamic_headers`, lines 65-127)

The regex searches `nama\s*variasi\s*(\d+)`, `foto\s*variasi\s*(\d+)`,
`option\s*(\d+)\s*name` and `option\s*(\d+)\s*image` are embedded as
leftmost-match scanners; since every pattern piece after a `\s*` starts
with a non-space, non-digit character, the greedy semantics is the
deterministic one implemented here. -/

/-- Drop whitespace at the front (the `\s*` pieces of the regexes). -/
def skipWs (l : List Char) : List Char := l.dropWhile Char.isWhitespace

/-- Match a literal word at the front, returning the rest on success. -/
def dropLit : List Char → List Char → Option (List Char)
  | [], l => some l
  | _ :: _, [] => none
  | a :: as, b :: bs => if a = b then dropLit as bs else none

/-- Maximal non-empty digit run at the front, as a number (`(\d+)`). -/
def digitRun (l : List Char) : Option Nat :=
  let ds := l.takeWhile Char.isDigit
  if ds = [] then none else some (digitsToNat ds)

/-- Match `w₁ \s* w₂ \s* (\d+)` at the front of the list. -/
def matchWordsThenNum (w₁ w₂ : List Char) (l : List Char) : Option Nat :=
  match dropLit w₁ l with
  | none => none
  | some r₁ =>
    match dropLit w₂ (skipWs r₁) with
    | none => none
    | some r₂ => digitRun (skipWs r₂)

/-- Match `w₁ \s* (\d+) \s* w₂` at the front of the list. -/
def matchWordNumWord (w₁ w₂ : List Char) (l : List Char) : Option Nat :=
  match dropLit w₁ l with
  | none => none
  | some r₁ =>
    let r₂ := skipWs r₁
    let ds := r₂.takeWhile Char.isDigit
    if ds = [] then none
    else
      match dropLit w₂ (skipWs (r₂.dropWhile Char.isDigit)) with
      | none => none
      | some _ => some (digitsToNat ds)

/-- Leftmost match: try the matcher at every start position (`re.search`). -/
def searchNum (f : List Char → Option Nat) : List Char → Option Nat
  | [] => f []
  | c :: t =>
    match f (c :: t) with
    | some n => some n
    | none => searchNum f t

/-- Stable ascending insertion by numeric key (`list.sort(key=...)`). -/
def insertByNum (x : Nat × String) : List (Nat × String) → List (Nat × String)
  | [] => [x]
  | y :: ys => if x.1 ≤ y.1 then x :: y :: ys else y :: insertByNum x ys

/-- Stable sort by numeric key. -/
def sortByNum (l : List (Nat × String)) : List (Nat × String) :=
  l.foldr insertByNum []

/-- Lookup in a `{num: header}` dict built from a list, where a later binding
for the same number overwrites an earlier one. -/
def lookupLast (l : List (Nat × String)) (n : Nat) : Option String :=
  ((l.filter (fun p => p.1 = n)).getLast?).map (fun p => p.2)

/-- Insert into an ascending duplicate-free list of numbers. -/
def insDedup (x : Nat) : List Nat → List Nat
  | [] => [x]
  | y :: ys => if x < y then x :: y :: ys else if x = y then y :: ys else y :: insDedup x ys

/-- Ascending duplicate-free list of the given numbers (`sorted(set(...))`). -/
def sortedNubNums (l : List Nat) : List Nat := l.foldr insDedup []

/-- Classification pass of `detect_dynamic_headers`: split the headers into
special size-guide headers, numbered name headers and numbered image
headers, preserving input order. -/
def detectScan (headers : List String) :
    List String × List (Nat × String) × List (Nat × String) :=
  headers.foldl
    (fun acc header =>
      let hl := normalize_header header
      if strContains hl "foto panduan ukuran" ∨ strContains hl "size guide" then
        (acc.1 ++ [header], acc.2.1, acc.2.2)
      else
        match searchNum (matchWordsThenNum "nama".data "variasi".data) hl.data with
        | some n => (acc.1, acc.2.1 ++ [(n, header)], acc.2.2)
        | none =>
          match searchNum (matchWordsThenNum "foto".data "variasi".data) hl.data with
          | some n => (acc.1, acc.2.1, acc.2.2 ++ [(n, header)])
          | none =>
            match searchNum (matchWordNumWord "option".data "name".data) hl.data with
            | some n => (acc.1, acc.2.1 ++ [(n, header)], acc.2.2)
            | none =>
              match searchNum (matchWordNumWord "option".data "image".data) hl.data with
              | some n => (acc.1, acc.2.1, acc.2.2 ++ [(n, header)])
              | none => acc)
    ([], [], [])

/-- Embedding of `detect_dynamic_headers` (column_mapper.py lines 65-127):
special headers first, then name/image pairs interleaved in ascending
numeric order, capped at 15 numbers. -/
def detect_dynamic_headers (headers : List String) : List String :=
  let scan := detectScan headers
  let nameSorted := sortByNum scan.2.1
  let imageSorted := sortByNum scan.2.2
  let allNumbers :=
    (sortedNubNums ((nameSorted.map (fun p => p.1)) ++ (imageSorted.map (fun p => p.1)))).take 15
  scan.1 ++
    (allNumbers.map (fun n =>
      (lookupLast nameSorted n).toList ++ (lookupLast imageSorted n).toList)).flatten

/-! ### Column rules and the mapping pass -/

/-- Embedding of the `ColumnRule` dataclass (column_mapper.py lines 24-29). -/
structure ColumnRule where
  standard_column : String
  action : String
  replacements : List String
deriving DecidableEq

/-- Pop the leftmost unclaimed index stored under key `k`
(`working_map[key].pop(0)` guarded by `key in working_map and working_map[key]`). -/
def hmPop : List (String × List Nat) → String → Option (Nat × List (String × List Nat))
  | [], _ => none
  | (k', v) :: rest, k =>
    if k' = k then
      match v with
      | [] => none
      | i :: v' => some (i, (k', v') :: rest)
    else
      match hmPop rest k with
      | none => none
      | some (i, m') => some (i, (k', v) :: m')

/-- Embedding of `apply_coalesce_exact` (column_mapper.py lines 130-151):
first replacement with an unclaimed column wins and is claimed. -/
def apply_coalesce_exact (working : List (String × List Nat)) :
    List String → Option (Nat × List (String × List Nat))
  | [] => none
  | r :: rs =>
    match hmPop working (normalize_header r) with
    | some res => some res
    | none => apply_coalesce_exact working rs

/-- Scan the working map keys in insertion order for the first key starting
with the pattern that still has an unclaimed column, and claim it. -/
def popFirstMatching : List (String × List Nat) → String → Option (Nat × List (String × List Nat))
  | [], _ => none
  | (k, v) :: rest, p =>
    if strStartsWithL k p ∧ v ≠ [] then
      match v with
      | i :: v' => some (i, (k, v') :: rest)
      | [] => none
    else
      match popFirstMatching rest p with
      | none => none
      | some (i, m') => some (i, (k, v) :: m')

/-- Embedding of `apply_coalesce_starts_with` (column_mapper.py lines 154-175). -/
def apply_coalesce_starts_with (working : List (String × List Nat)) :
    List String → Option (Nat × List (String × List Nat))
  | [] => none
  | p :: ps =>
    match popFirstMatching working (normalize_header p) with
    | some res => some res
    | none => apply_coalesce_starts_with working ps

/-- One entry of the pre-calculated column mapping
(`{'header': ..., 'source_idx': ..., 'rule': ...}`). -/
structure HeaderMapping where
  header : String
  source_idx : Option Nat
  rule : Option ColumnRule
deriving DecidableEq

/-- Loop body of `ColumnMapper._calculate_mapping` (column_mapper.py lines
341-377) for one output header: resolve a direct match first, otherwise
consult the configured rule; returns the `source_idx`/`rule` pair of the
mapping entry together with the updated working map.  `rules` models the
`rules_by_column` dict lookup (keyed by the raw header). -/
def resolveHeader (rules : String → Option ColumnRule) (h : String)
    (working : List (String × List Nat)) :
    (Option Nat × Option ColumnRule) × List (String × List Nat) :=
  match hmPop working (normalize_header h) with
  | some (i, w') => ((some i, none), w')
  | none =>
    match rules h with
    | some r =>
      if r.action = "COALESCE_EXACT" then
        match apply_coalesce_exact working r.replacements with
        | some (i, w') => ((some i, some r), w')
        | none => ((none, some r), working)
      else if r.action = "COALESCE_STARTS_WITH" then
        match apply_coalesce_starts_with working r.replacements with
        | some (i, w') => ((some i, some r), w')
        | none => ((none, some r), working)
      else
        -- SUM_STARTS_WITH (and any other action) is handled per-row
        ((none, some r), working)
    | none => ((none, none), working)

/-- Embedding of `ColumnMapper._calculate_mapping` (column_mapper.py lines
324-379), threading the mutable working copy of the header map through
`resolveHeader`. -/
def calcMappingAux (rules : String → Option ColumnRule) :
    List String → List (String × List Nat) → List HeaderMapping
  | [], _ => []
  | h :: t, working =>
    let res := resolveHeader rules h working
    ⟨h, res.1.1, res.1.2⟩ :: calcMappingAux rules t res.2

/-- The full `_calculate_mapping` pass: start from a fresh working copy of
the source header map. -/
def calculate_mapping (rules : String → Option ColumnRule) (outputHeaders : List String)
    (sourceHeaderMap : List (String × List Nat)) : List HeaderMapping :=
  calcMappingAux rules outputHeaders sourceHeaderMap

/-- Source-column indices claimed by a mapping pass. -/
def claimedIdx (ms : List HeaderMapping) : List Nat :=
  ms.filterMap (fun m => m.source_idx)

/-- All column indices stored in a header map. -/
def hmIndices (m : List (String × List Nat)) : List Nat :=
  (m.map (fun kv => kv.2)).flatten

/-! ### The SUM_STARTS_WITH rule (`apply_sum_starts_with`, lines 178-221)

The rule reads the original header map and parses each matching cell with
its own normalization — `value_str.replace('.', '').replace(',', '.')`
followed by `float(...)` — not with `parse_number`. -/

/-- Sentinel tokens skipped by `apply_sum_starts_with` (line 208). -/
def sumSentinels : List String := ["-", "N/A", "#N/A"]

/-- The per-cell parse of `apply_sum_starts_with`: drop every `.`, turn `,`
into `.`, then `float(...)`. -/
def sumCellParse (vs : String) : Option ℚ :=
  parseFixed ((vs.data.filter (fun c => ¬ c = '.')).map (fun c => if c = ',' then '.' else c))

/-- Numeric contribution of one raw cell under `apply_sum_starts_with`:
`None` cells, blank cells, sentinel tokens and unparsable text contribute
nothing. -/
def cellContrib (cell : Option String) : Option ℚ :=
  match cell with
  | none => none
  | some s =>
    let vs := strStrip s
    if vs = "" ∨ vs ∈ sumSentinels then none
    else sumCellParse vs

/-- Python float `repr` of an exact decimal value: integral values print as
integers (`str(int(total))`), other values in minimal decimal notation
(`str(total)`). -/
def renderPyNum (q : ℚ) : String :=
  if q.den = 1 then toString q.num
  else
    let k :=
      match (List.range 30).find? (fun k => (qMul q (pow10 k)).den = 1) with
      | some k => k
      | none => 30
    let n := (qMul q (pow10 k)).num
    let ds₀ := (toString n.natAbs).data
    let ds := List.replicate (k + 1 - ds₀.length) '0' ++ ds₀
    let ip : List Char := ds.take (ds.length - k)
    let fp : List Char := ds.drop (ds.length - k)
    (if n < 0 then "-" else "") ++ (⟨ip⟩ : String) ++ "." ++ (⟨fp⟩ : String)

/-- Accumulator step for one column index: `total += float(...)`, `found_any
= True` when the cell contributes (lines 201-214). -/
def sumStepCell (sourceRow : List (Option String)) (acc : ℚ × Bool) (idx : Nat) : ℚ × Bool :=
  match (sourceRow.get? idx).bind cellContrib with
  | some v => (qAdd acc.1 v, true)
  | none => acc

/-- Accumulator step for one header-map entry: fold over its indices when
the key starts with the pattern (lines 199-214). -/
def sumStepKey (sourceRow : List (Option String)) (pl : String) (acc : ℚ × Bool)
    (kv : String × List Nat) : ℚ × Bool :=
  if strStartsWithL kv.1 pl then kv.2.foldl (sumStepCell sourceRow) acc else acc

/-- Embedding of `apply_sum_starts_with` (column_mapper.py lines 178-221):
sum every cell whose (original-map) key starts with a configured pattern,
then render the total, or return `""` when nothing contributed. -/
def apply_sum_starts_with (sourceRow : List (Option String))
    (sourceHeaderMap : List (String × List Nat)) (patterns : List String) : String :=
  let acc :=
    patterns.foldl
      (fun acc pattern =>
        sourceHeaderMap.foldl (sumStepKey sourceRow (normalize_header pattern)) acc)
      (natQ 0, false)
  if acc.2 then renderPyNum acc.1 else ""

/-- List of the contributions gathered by one `SUM_STARTS_WITH` evaluation,
in scan order, with cells parsed by `f`. -/
def sumContributionsWith (f : Option String → Option ℚ) (sourceRow : List (Option String))
    (sourceHeaderMap : List (String × List Nat)) (patterns : List String) : List ℚ :=
  (patterns.map (fun pattern =>
    let pl := normalize_header pattern
    (sourceHeaderMap.map (fun kv =>
      if strStartsWithL kv.1 pl then
        kv.2.filterMap (fun idx => (sourceRow.get? idx).bind f)
      else [])).flatten)).flatten

/-- Contributions as the code gathers them (own per-cell parse). -/
def sumContributions (sourceRow : List (Option String))
    (sourceHeaderMap : List (String × List Nat)) (patterns : List String) : List ℚ :=
  sumContributionsWith cellContrib sourceRow sourceHeaderMap patterns

/-- Running sum from a starting value. -/
def qAddList (t : ℚ) (l : List ℚ) : ℚ := l.foldl qAdd t

/-- Sum of a list of contributions. -/
def qSum (l : List ℚ) : ℚ := qAddList (natQ 0) l

/-- Modelled from the spec's words for claim C3 (spec §4.1 per-row
projection): identical scan to `apply_sum_starts_with`, but applying "the
locale-aware numeric parse of §4.2" — `parse_number` — to each matching raw
cell.  This definition exists only to compare the spec's description with
the code. -/
def applySumSpecParse (sourceRow : List (Option String))
    (sourceHeaderMap : List (String × List Nat)) (patterns : List String) : String :=
  let cs := sumContributionsWith (fun c => c.bind parse_number) sourceRow sourceHeaderMap patterns
  if cs = [] then "" else renderPyNum (qSum cs)

/-! ### Per-row projection (`ColumnMapper._map_row`, lines 381-417) -/

/-- Embedding of `_map_row`: one output cell per mapping entry; a resolved
index takes the trimmed stringified cell (missing/`None` → `""`), a
`SUM_STARTS_WITH` rule is evaluated against the unmodified original header
map, anything else yields `""`. -/
def map_row (sourceRow : List (Option String)) (columnMapping : List HeaderMapping)
    (sourceHeaderMap : List (String × List Nat)) : List (String × String) :=
  columnMapping.map (fun m =>
    (m.header,
      match m.source_idx with
      | some idx =>
        match sourceRow.get? idx with
        | some (some v) => strStrip v
        | some none => ""
        | none => ""
      | none =>
        match m.rule with
        | some r =>
          if r.action = "SUM_STARTS_WITH" then
            apply_sum_starts_with sourceRow sourceHeaderMap r.replacements
          else ""
        | none => ""))

/-- Output header construction of `ColumnMapper.map_file` (lines 287-294):
canonical headers first, then any detected dynamic header whose normalized
form is not already present. -/
def mapFileHeaders (standardHeaders : List String) (includeDynamic : Bool)
    (sourceHeaders : List String) : List String :=
  let dynamicHeaders := if includeDynamic then detect_dynamic_headers sourceHeaders else []
  (dynamicHeaders.foldl
    (fun (acc : List String × List String) dh =>
      if normalize_header dh ∈ acc.2 then acc
      else (acc.1 ++ [dh], acc.2 ++ [normalize_header dh]))
    (standardHeaders, standardHeaders.map normalize_header)).1

/-! ## File Ingestor (`parser.py`)

Cells are modelled as `Option String`: `none` is Python `None`, `some s` is
the `str(...)` image of the raw cell.
-/

/-- Character class of `re.sub(r'[\s\-\.]+', '_', ...)`. -/
def isSpaceDashDot (c : Char) : Bool := c.isWhitespace || c = '-' || c = '.'

/-- Replace every maximal run of characters satisfying `p` by the single
character `r` (the `re.sub(class+, r, ...)` steps of `clean_header`). -/
def collapseRunsAux (p : Char → Bool) (r : Char) (inRun : Bool) : List Char → List Char
  | [] => []
  | c :: t =>
    if p c then
      if inRun then collapseRunsAux p r true t else r :: collapseRunsAux p r true t
    else c :: collapseRunsAux p r false t

/-- Characters kept by `re.sub(r'[^a-z0-9_]', '', ...)`. -/
def keepCleanChar (c : Char) : Bool := c.isLower || c.isDigit || c = '_'

/-- Embedding of `clean_header` (parser.py lines 82-108): strip + lowercase,
space/dash/dot runs to `_`, drop other specials, collapse `_` runs, strip
`_`. -/
def clean_header (header : String) : String :=
  if header = "" then ""
  else
    let c₀ := (trimChars header.data).map Char.toLower
    let c₁ := collapseRunsAux isSpaceDashDot '_' false c₀
    let c₂ := c₁.filter keepCleanChar
    let c₃ := collapseRunsAux (fun c => c = '_') '_' false c₂
    let c₄ := ((c₃.dropWhile (fun c => c = '_')).reverse.dropWhile (fun c => c = '_')).reverse
    ⟨c₄⟩

/-- Association-list lookup with `Nat` values (the `seen` dict). -/
def assocGetNat : List (String × Nat) → String → Option Nat
  | [], _ => none
  | (k, n) :: rest, key => if k = key then some n else assocGetNat rest key

/-- Association-list update with `Nat` values. -/
def assocSetNat : List (String × Nat) → String → Nat → List (String × Nat)
  | [], key, n => [(key, n)]
  | (k, m) :: rest, key, n =>
    if k = key then (k, n) :: rest else (k, m) :: assocSetNat rest key n

/-- Deduplication loop of `parse_file` (parser.py lines 404-414): empty
cleaned headers become `column`, repeats get `_1`, `_2`, ... suffixes. -/
def uniquifyAux : List String → List (String × Nat) → List String
  | [], _ => []
  | h₀ :: t, seen =>
    let h := if h₀ = "" then "column" else h₀
    match assocGetNat seen h with
    | some k => (h ++ "_" ++ toString (k + 1)) :: uniquifyAux t (assocSetNat seen h (k + 1))
    | none => h :: uniquifyAux t (assocSetNat seen h 0)

/-- Unique-header pass over the cleaned headers. -/
def uniquify (hs : List String) : List String := uniquifyAux hs []

/-- A cell that the blank-row filter ignores: `None` or whitespace-only text
(parser.py line 360). -/
def isBlankCell : Option String → Bool
  | none => true
  | some s => strStrip s = ""

/-- Whether the blank-row filter skips a row: empty, or all cells blank. -/
def isBlankRow (r : List (Option String)) : Bool := r.isEmpty || r.all isBlankCell

/-- Embedding of `parse_cell_value` (parser.py lines 168-177): `None` and
blank strings to `""`, everything else stringified and trimmed. -/
def parse_cell_value : Option String → String
  | none => ""
  | some s => strStrip s

/-- Python-dict update on a row keyed by header text (later duplicate
headers overwrite earlier ones). -/
def rowDictSet : List (String × Option String) → String → Option String → List (String × Option String)
  | [], k, v => [(k, v)]
  | (k', v') :: rest, k, v =>
    if k' = k then (k', v) :: rest else (k', v') :: rowDictSet rest k v

/-- Python-dict lookup on a row. -/
def rowDictGet : List (String × Option String) → String → Option (Option String)
  | [], _ => none
  | (k', v) :: rest, k => if k' = k then some v else rowDictGet rest k

/-- Row dictionary built by `_parse_raw_data` (parser.py lines 460-468):
`row_dict[header] = row[col_idx]`, or `""` past the row's end. -/
def rawRowDict (headers : List String) (row : List (Option String)) :
    List (String × Option String) :=
  headers.enum.foldl
    (fun d p =>
      rowDictSet d p.2 (match row.get? p.1 with | some c => c | none => some ""))
    []

/-- Embedding of `_parse_raw_data` (parser.py lines 447-472): unmapped 1:1
pass-through; the per-row `try` cannot fail on list rows, so no row errors
are produced. -/
def parseRawData (headers : List String) (rows : List (List (Option String))) :
    List String × List (List (String × Option String)) :=
  (headers, rows.map (rawRowDict headers))

/-- Final row conversion of `parse_file` (lines 417-424): pair original
output headers with their unique cleaned names and normalize each cell. -/
def finalRows (outputHeaders uniqueHeaders : List String)
    (rows : List (List (String × Option String))) : List (List (String × String)) :=
  rows.map (fun row =>
    (outputHeaders.zip uniqueHeaders).map (fun p =>
      (p.2, parse_cell_value (match rowDictGet row p.1 with | some v => v | none => some ""))))

/-- Result record of `parse_file` (the `ParsedFile` class, parser.py lines
40-79). -/
structure ParsedFileData where
  headers : List String
  rows : List (List (String × String))
  total_rows : Nat
  skipped_rows : Nat
  errors : List String
  column_mapped : Bool
  source_headers : List String
deriving DecidableEq

/-- Embedding of the post-read part of `parse_file` (parser.py lines
356-444).  `hasSchema` models `category.required_headers` being non-empty;
`mapOutcome` models the `try` around the column mapping engine: `.ok`
carries `mapper.map_file`'s result, `.error` a raised exception.  On an
exception (or with no schema) the raw 1:1 pass-through is used, and the
exception is only logged — never added to `errors`. -/
def parseFileCore (headers : List String) (rawRows : List (List (Option String)))
    (hasSchema : Bool)
    (mapOutcome : Except String (List String × List (List (String × String)))) :
    ParsedFileData :=
  let filtered := rawRows.filter (fun r => ¬ isBlankRow r = true)
  let skipped := (rawRows.filter (fun r => isBlankRow r = true)).length
  let mappedData :=
    if hasSchema then
      match mapOutcome with
      | Except.ok (mh, mr) =>
        (mh, mr.map (fun row => row.map (fun kv => (kv.1, some kv.2))), true)
      | Except.error _ =>
        let raw := parseRawData headers filtered
        (raw.1, raw.2, false)
    else
      let raw := parseRawData headers filtered
      (raw.1, raw.2, false)
  let outputHeaders := mappedData.1
  let parsedRows := mappedData.2.1
  let unique := uniquify (outputHeaders.map clean_header)
  { headers := unique
    rows := finalRows outputHeaders unique parsedRows
    total_rows := rawRows.length
    skipped_rows := skipped
    errors := []
    column_mapped := mappedData.2.2
    source_headers := headers }

/-! ## Load Coordinator / Resource Provisioner (`bigquery_loader.py`) -/

/-- Character for one base-26 digit: `chr(ord('A') + index % 26)`. -/
def colChar (n : Nat) : Char := Char.ofNat (65 + n % 26)

/-- Fuel-based unrolling of the `while` loop of `get_column_name`
(bigquery_loader.py lines 26-37).  The loop prepends `chr(ord('A') + i %
26)` and continues with `i // 26 - 1` while that is non-negative; fuel
`index + 1` always suffices because the index strictly decreases. -/
def colNameCharsAux : Nat → Nat → List Char
  | 0, _ => []
  | fuel + 1, i =>
    if i < 26 then [colChar i] else colNameCharsAux fuel (i / 26 - 1) ++ [colChar i]

/-- Character list of the Excel-style column name. -/
def colNameChars (index : Nat) : List Char := colNameCharsAux (index + 1) index

/-- Embedding of `get_column_name`: 0 → `A`, 25 → `Z`, 26 → `AA`, ... -/
def get_column_name (index : Nat) : String := ⟨colNameChars index⟩

/-- One BigQuery schema field (name, type, mode). -/
structure SchemaField where
  name : String
  field_type : String
  mode : String
deriving DecidableEq

/-- The required metadata column. -/
def brandCodeField : SchemaField := ⟨"_brand_code", "STRING", "REQUIRED"⟩

/-- Embedding of `BigQueryLoader.get_schema` (lines 77-98): `_brand_code`
(REQUIRED) followed by one NULLABLE STRING column per data column. -/
def get_schema (numColumns : Nat) : List SchemaField :=
  brandCodeField ::
    (List.range numColumns).map (fun i => ⟨get_column_name i, "STRING", "NULLABLE"⟩)

/-- Schema update performed by `ensure_table_exists` when the table already
exists (lines 113-129): keep the existing fields and append exactly the
required fields whose names are not present. -/
def updateTableSchema (existing required : List SchemaField) : List SchemaField :=
  let existingNames := existing.map (fun f => f.name)
  existing ++ required.filter (fun f => ¬ f.name ∈ existingNames)

/-- Lookup in a prepared row (field name → value). -/
def rowLookup : List (String × String) → String → Option String
  | [], _ => none
  | (k, v) :: rest, key => if k = key then some v else rowLookup rest key

/-- Embedding of the header-sentinel row built by `prepare_rows` (lines
177-181): `_brand_code` carries the `"_header_"` marker and column `get_column_name i`
carries `parsed_file.headers[i]` (`str(header) if header else ""`). -/
def prepareHeaderRow (headers : List String) : List (String × String) :=
  ("_brand_code", "_header_") ::
    headers.enum.map (fun p => (get_column_name p.1, if p.2 = "" then "" else p.2))

/-- Embedding of one data row built by `prepare_rows` (lines 183-197). -/
def prepareDataRow (headers : List String) (brandCode : String)
    (row : List (String × String)) : List (String × String) :=
  ("_brand_code", brandCode) ::
    headers.enum.map (fun p =>
      (get_column_name p.1,
        match assocGetStr row p.2 with
        | some v => v
        | none => ""))
where
  /-- `row.get(header, "")` on the string-valued row dict. -/
  assocGetStr : List (String × String) → String → Option String
    | [], _ => none
    | (k, v) :: rest, key => if k = key then some v else assocGetStr rest key

/-- Embedding of `BigQueryLoader.prepare_rows` (lines 163-199). -/
def prepare_rows (pf : ParsedFileData) (brandCode : String) :
    List (String × String) × List (List (String × String)) :=
  (prepareHeaderRow pf.headers, pf.rows.map (prepareDataRow pf.headers brandCode))

/-- Relational semantics of the parameterized query issued by
`delete_brand_data` (lines 309-317): `DELETE FROM table WHERE _brand_code =
@brand_code` removes exactly the rows whose `_brand_code` field equals the
bound parameter. -/
def deleteWhereBrandCode (table : List (List (String × String))) (brandCode : String) :
    List (List (String × String)) :=
  table.filter (fun r => ¬ rowLookup r "_brand_code" = some brandCode)

/-- Outcome of one delete attempt against the warehouse, as distinguished by
the `except` clauses of `delete_brand_data` (lines 321-357). -/
inductive DeleteAttempt where
  | success (rowsDeleted : Int)
  | notFound
  | rateLimit
  | badRequestOther
  | otherError
deriving DecidableEq

/-- Retry loop of `delete_brand_data` (lines 320-361): success returns the
count, `NotFound` returns 0, a rate-limit `BadRequest` backs off and
retries, any other error returns 0; when the attempt list is exhausted the
error is logged and `0` is returned — no exception escapes, so no `.error`
value is ever produced. -/
def deleteBrandDataGo : List DeleteAttempt → Except String Int
  | [] => Except.ok 0
  | a :: rest =>
    match a with
    | DeleteAttempt.success n => Except.ok n
    | DeleteAttempt.notFound => Except.ok 0
    | DeleteAttempt.rateLimit => deleteBrandDataGo rest
    | DeleteAttempt.badRequestOther => Except.ok 0
    | DeleteAttempt.otherError => Except.ok 0

/-- Embedding of `delete_brand_data` with its `max_retries` bound (5). -/
def delete_brand_data (attempts : List DeleteAttempt) (maxRetries : Nat) : Except String Int :=
  deleteBrandDataGo (attempts.take maxRetries)

/-- Observable outcome of the snapshot path of `upload` (lines 424-447). -/
structure UploadRun where
  insertExecuted : Bool
  rowsToInsert : Nat
  deletedRows : Int
deriving DecidableEq

/-- Embedding of the snapshot branch of `upload` (lines 427-447): run the
per-brand delete, then prepare the rows, prepend the header-sentinel row
when it is not yet present, and hand everything to the streaming insert.
Only an exception from the delete step (which `delete_brand_data` never
raises) would abort before the insert. -/
def uploadSnapshotRun (attempts : List DeleteAttempt) (pf : ParsedFileData)
    (brandCode : String) (headerRowExists : Bool) : UploadRun :=
  match delete_brand_data attempts 5 with
  | Except.error _ => ⟨false, 0, 0⟩
  | Except.ok d =>
    let pr := prepare_rows pf brandCode
    let rowsToInsert := (if headerRowExists then [] else [pr.1]) ++ pr.2
    ⟨true, rowsToInsert.length, d⟩

/-! ## Theorems

The `mkRat`-based arithmetic used by the embeddings agrees with the
standard rational operations. -/

theorem natQ_eq (n : Nat) : natQ n = (n : ℚ) := by
  simp [natQ]

theorem qAdd_eq (a b : ℚ) : qAdd a b = a + b := by
  have ha : ((a.den : ℚ)) ≠ 0 := Nat.cast_ne_zero.2 a.den_nz
  have hb : ((b.den : ℚ)) ≠ 0 := Nat.cast_ne_zero.2 b.den_nz
  rw [qAdd, Rat.mkRat_eq_divInt, Rat.divInt_eq_div]
  push_cast
  conv_rhs => rw [← Rat.num_div_den a, ← Rat.num_div_den b]
  field_simp

theorem qMul_eq (a b : ℚ) : qMul a b = a * b := by
  have ha : ((a.den : ℚ)) ≠ 0 := Nat.cast_ne_zero.2 a.den_nz
  have hb : ((b.den : ℚ)) ≠ 0 := Nat.cast_ne_zero.2 b.den_nz
  rw [qMul, Rat.mkRat_eq_divInt, Rat.divInt_eq_div]
  push_cast
  conv_rhs => rw [← Rat.num_div_den a, ← Rat.num_div_den b]
  field_simp

theorem qInv_eq (a : ℚ) : qInv a = a⁻¹ := by
  rw [Rat.inv_def', qInv]
  split
  case isTrue h =>
    rw [Rat.mkRat_eq_divInt, Int.toNat_of_nonneg h]
    norm_cast
  case isFalse h =>
    rw [Rat.mkRat_eq_divInt, Int.toNat_of_nonneg (by omega : (0:ℤ) ≤ -a.num)]
    rw [Rat.divInt_eq_div, Rat.divInt_eq_div]
    push_cast
    rw [div_neg, neg_div, neg_neg]
    norm_cast

theorem qDiv_eq (a b : ℚ) : qDiv a b = a / b := by
  rw [qDiv, qMul_eq, qInv_eq, div_eq_mul_inv]

theorem pow10_eq (k : Nat) : pow10 k = (10 : ℚ) ^ k := by
  induction k with
  | zero => simp [pow10, natQ_eq]
  | succ n ih => rw [pow10, qMul_eq, ih, natQ_eq, pow_succ]; norm_num

/-! ## Excel-style column names: helper lemmas -/

theorem colChar_mod (m : Nat) : colChar (m % 26) = colChar m := by
  unfold colChar
  congr 1
  omega

theorem colChar_inj_lt {a b : Nat} (ha : a < 26) (hb : b < 26)
    (h : colChar a = colChar b) : a = b := by
  have h26 : ∀ x y : Fin 26, colChar x.val = colChar y.val → x = y := by decide
  exact congrArg Fin.val (h26 ⟨a, ha⟩ ⟨b, hb⟩ h)

theorem colChar_ne_underscore (m : Nat) : colChar m ≠ '_' := by
  have h26 : ∀ x : Fin 26, colChar x.val ≠ '_' := by decide
  have hm : m % 26 < 26 := Nat.mod_lt _ (by omega)
  intro h
  exact h26 ⟨m % 26, hm⟩ (by rw [colChar_mod]; exact h)

theorem colNameCharsAux_fuel (i : Nat) :
    ∀ f₁ f₂, i < f₁ → i < f₂ → colNameCharsAux f₁ i = colNameCharsAux f₂ i := by
  induction i using Nat.strong_induction_on with
  | _ i ih =>
    intro f₁ f₂ h₁ h₂
    match f₁, f₂ with
    | g₁ + 1, g₂ + 1 =>
      by_cases h26 : i < 26
      · simp [colNameCharsAux, h26]
      · have hd : i / 26 < i := Nat.div_lt_self (by omega) (by omega)
        simp only [colNameCharsAux, if_neg h26]
        rw [ih (i / 26 - 1) (by omega) g₁ g₂ (by omega) (by omega)]

theorem colNameChars_eq (i : Nat) :
    colNameChars i =
      if i < 26 then [colChar i] else colNameChars (i / 26 - 1) ++ [colChar i] := by
  have h : colNameCharsAux (i + 1) i =
      if i < 26 then [colChar i]
      else colNameCharsAux (i / 26 - 1 + 1) (i / 26 - 1) ++ [colChar i] := by
    by_cases h26 : i < 26
    · simp [colNameCharsAux, h26]
    · have hd : i / 26 < i := Nat.div_lt_self (by omega) (by omega)
      simp only [colNameCharsAux, if_neg h26]
      rw [colNameCharsAux_fuel (i / 26 - 1) i (i / 26 - 1 + 1) (by omega) (by omega)]
      simp only [colNameCharsAux]
  exact h

theorem colNameChars_ne_nil (i : Nat) : colNameChars i ≠ [] := by
  rw [colNameChars_eq]
  by_cases h26 : i < 26 <;> simp [h26]

theorem append_singleton_inj {α : Type} {l₁ l₂ : List α} {a b : α}
    (h : l₁ ++ [a] = l₂ ++ [b]) : l₁ = l₂ ∧ a = b := by
  have h' := congrArg List.reverse h
  simp only [List.reverse_append, List.reverse_cons, List.reverse_nil,
    List.nil_append, List.singleton_append, List.cons.injEq] at h'
  exact ⟨List.reverse_injective h'.2, h'.1⟩

theorem colNameChars_inj : ∀ i j, colNameChars i = colNameChars j → i = j := by
  intro i
  induction i using Nat.strong_induction_on with
  | _ i ih =>
    intro j h
    rw [colNameChars_eq i, colNameChars_eq j] at h
    by_cases hi : i < 26 <;> by_cases hj : j < 26
    · rw [if_pos hi, if_pos hj] at h
      simp only [List.cons.injEq, and_true] at h
      exact colChar_inj_lt hi hj h
    · rw [if_pos hi, if_neg hj] at h
      have hlen := congrArg List.length h
      simp only [List.length_cons, List.length_nil, List.length_append] at hlen
      have hz : (colNameChars (j / 26 - 1)).length = 0 := by omega
      exact absurd (List.length_eq_zero.1 hz) (colNameChars_ne_nil _)
    · rw [if_neg hi, if_pos hj] at h
      have hlen := congrArg List.length h
      simp only [List.length_cons, List.length_nil, List.length_append] at hlen
      have hz : (colNameChars (i / 26 - 1)).length = 0 := by omega
      exact absurd (List.length_eq_zero.1 hz) (colNameChars_ne_nil _)
    · rw [if_neg hi, if_neg hj] at h
      obtain ⟨hpre, hc⟩ := append_singleton_inj h
      have hdlt : i / 26 < i := Nat.div_lt_self (by omega) (by omega)
      have hdiv : i / 26 - 1 = j / 26 - 1 := ih (i / 26 - 1) (by omega) _ hpre
      have hmod : i % 26 = j % 26 := by
        have hmi : i % 26 < 26 := Nat.mod_lt _ (by omega)
        have hmj : j % 26 < 26 := Nat.mod_lt _ (by omega)
        exact colChar_inj_lt hmi hmj (by rw [colChar_mod, colChar_mod]; exact hc)
      omega

theorem get_column_name_inj {i j : Nat} (h : get_column_name i = get_column_name j) :
    i = j :=
  colNameChars_inj i j (congrArg String.data h)

theorem colNameChars_head : ∀ k, ∃ m t, colNameChars k = colChar m :: t := by
  intro k
  induction k using Nat.strong_induction_on with
  | _ k ihk =>
    rw [colNameChars_eq]
    by_cases h26 : k < 26
    · exact ⟨k, [], by simp [h26]⟩
    · have hd : k / 26 < k := Nat.div_lt_self (by omega) (by omega)
      obtain ⟨m, t, ht⟩ := ihk (k / 26 - 1) (by omega)
      exact ⟨m, t ++ [colChar k], by simp [h26, ht]⟩

theorem get_column_name_ne_brand (i : Nat) : get_column_name i ≠ "_brand_code" := by
  intro h
  have hdata := congrArg String.data h
  obtain ⟨m, t, ht⟩ := colNameChars_head i
  rw [show (get_column_name i).data = colNameChars i from rfl, ht] at hdata
  have hbc : ("_brand_code" : String).data = '_' :: "brand_code".data := rfl
  rw [hbc] at hdata
  simp only [List.cons.injEq] at hdata
  exact colChar_ne_underscore m hdata.1

/-- Lookup of the column for position `start + i` in the enumerated header
fields of a prepared row. -/
theorem rowLookup_enumFrom (val : String → String) :
    ∀ (hs : List String) (start i : Nat) (h : String), hs.get? i = some h →
      rowLookup ((hs.enumFrom start).map (fun p => (get_column_name p.1, val p.2)))
        (get_column_name (start + i)) = some (val h) := by
  intro hs
  induction hs with
  | nil => intro start i h hget; simp at hget
  | cons hd tl ih =>
    intro start i h hget
    cases i with
    | zero =>
      simp only [List.get?] at hget
      cases hget
      simp [List.enumFrom, rowLookup]
    | succ i' =>
      simp only [List.get?] at hget
      have hne : ¬ get_column_name start = get_column_name (start + (i' + 1)) := by
        intro hc
        have := get_column_name_inj hc
        omega
      simp only [List.enumFrom, List.map_cons, rowLookup, if_neg hne]
      have := ih (start + 1) i' h hget
      rw [show start + 1 + i' = start + (i' + 1) by omega] at this
      exact this

/-! ## Claim theorems -/

/-- C10: `get_column_name` is injective on indices — distinct header
positions get distinct Excel-style destination columns, so `get_schema`
assigns each position its own column and no two headers collide. -/
theorem claim_C10_get_column_name_injective (i j : Nat) (h : i ≠ j) :
    get_column_name i ≠ get_column_name j ∧
      ∀ n : Nat, ((get_schema n).map SchemaField.name).Nodup := by
  refine ⟨fun hc => h (get_column_name_inj hc), fun n => ?_⟩
  simp only [get_schema, List.map_cons, List.map_map]
  refine List.nodup_cons.2 ⟨?_, ?_⟩
  · intro hmem
    simp only [List.mem_map, Function.comp] at hmem
    obtain ⟨k, _, hk⟩ := hmem
    exact get_column_name_ne_brand k hk
  · refine (List.nodup_range n).map_on ?_
    intro a _ b _ hab
    exact get_column_name_inj hab

/-- Witness for C10 at concrete indices 0 and 27. -/
theorem claim_C10_witness :
    get_column_name 0 ≠ get_column_name 27 ∧
      ∀ n : Nat, ((get_schema n).map SchemaField.name).Nodup :=
  claim_C10_get_column_name_injective 0 27 (by decide)

/-- C4 counterexample: uploading the parsed form of a file whose source
header is `"Product Name"` writes a sentinel whose column `A` carries the
cleaned output header `"product_name"`, not the original (pre-normalization)
source header text. -/
theorem claim_C4_counterexample :
    (parseFileCore ["Product Name"] [[some "x"]] true
        (Except.ok (["Product Name"], [[("Product Name", "x")]]))).source_headers
        = ["Product Name"] ∧
    rowLookup (prepareHeaderRow
        (parseFileCore ["Product Name"] [[some "x"]] true
          (Except.ok (["Product Name"], [[("Product Name", "x")]]))).headers) "A"
        = some "product_name" ∧
    ¬ rowLookup (prepareHeaderRow
        (parseFileCore ["Product Name"] [[some "x"]] true
          (Except.ok (["Product Name"], [[("Product Name", "x")]]))).headers) "A"
        = some "Product Name" := by decide

/-- C4 (amended): the sentinel row built by `prepare_rows` and written by
`upload` has `_brand_code = "_header_"`, and the field for position `i`
carries `parsed_file.headers[i]` — the cleaned, deduplicated output header,
not the pre-normalization source header text. -/
theorem claim_C4_amended (headers : List String) (i : Nat) (h : String)
    (hget : headers.get? i = some h) :
    rowLookup (prepareHeaderRow headers) "_brand_code" = some "_header_" ∧
    rowLookup (prepareHeaderRow headers) (get_column_name i) = some h := by
  constructor
  · simp [prepareHeaderRow, rowLookup]
  · have hne : ¬ "_brand_code" = get_column_name i :=
      fun hc => get_column_name_ne_brand i hc.symm
    simp only [prepareHeaderRow, rowLookup, if_neg hne]
    have hval := rowLookup_enumFrom (fun s => if s = "" then "" else s) headers 0 i h hget
    rw [Nat.zero_add] at hval
    rw [show (List.enum headers) = List.enumFrom 0 headers from rfl]
    rw [hval]
    by_cases hh : h = "" <;> simp [hh]

/-- Witness for C4 (amended) on a one-column header list. -/
theorem claim_C4_amended_witness :
    rowLookup (prepareHeaderRow ["product_name"]) "_brand_code" = some "_header_" ∧
    rowLookup (prepareHeaderRow ["product_name"]) (get_column_name 0) = some "product_name" :=
  claim_C4_amended ["product_name"] 0 "product_name" (by decide)

/-- Every field of `get_schema` is the brand-code field or NULLABLE. -/
theorem get_schema_modes (n : Nat) :
    ∀ f ∈ get_schema n, f = brandCodeField ∨ f.mode = "NULLABLE" := by
  intro f hf
  rcases List.mem_cons.1 hf with h | h
  · exact Or.inl h
  · right
    obtain ⟨k, _, hk⟩ := List.mem_map.1 h
    rw [← hk]

/-- C7: when the destination table exists and the required column set
exceeds what is present, the schema update keeps every existing field
unchanged and in place (the old schema is a prefix of the new one, so
nothing is removed, renamed or retyped) and appends exactly the missing
required columns, each NULLABLE. -/
theorem claim_C7_additive_schema (existing : List SchemaField) (n : Nat)
    (hbrand : "_brand_code" ∈ existing.map SchemaField.name) :
    existing <+: updateTableSchema existing (get_schema n) ∧
    ∀ f ∈ updateTableSchema existing (get_schema n),
      f ∈ existing ∨
        (f ∈ get_schema n ∧ ¬ f.name ∈ existing.map SchemaField.name ∧
          f.mode = "NULLABLE") := by
  constructor
  · exact ⟨_, rfl⟩
  · intro f hf
    rcases List.mem_append.1 hf with h | h
    · exact Or.inl h
    · right
      obtain ⟨hmem, hp⟩ := List.mem_filter.1 h
      have hname : ¬ f.name ∈ existing.map SchemaField.name := of_decide_eq_true hp
      refine ⟨hmem, hname, ?_⟩
      rcases get_schema_modes n f hmem with rfl | hmode
      · exact absurd hbrand hname
      · exact hmode

/-- Witness for C7: a table holding only the brand-code column grows by one
NULLABLE column `A`. -/
theorem claim_C7_witness :
    [brandCodeField] <+: updateTableSchema [brandCodeField] (get_schema 1) ∧
    ∀ f ∈ updateTableSchema [brandCodeField] (get_schema 1),
      f ∈ [brandCodeField] ∨
        (f ∈ get_schema 1 ∧ ¬ f.name ∈ [brandCodeField].map SchemaField.name ∧
          f.mode = "NULLABLE") :=
  claim_C7_additive_schema [brandCodeField] 1 (by decide)

/-- C9: the per-brand delete is parameterized on `_brand_code = brand`, so
for any brand code other than the reserved `"_header_"` marker every
header-sentinel row survives the delete. -/
theorem claim_C9_sentinel_survives (table : List (List (String × String)))
    (brandCode : String) (r : List (String × String))
    (hb : brandCode ≠ "_header_") (hr : r ∈ table)
    (hsent : rowLookup r "_brand_code" = some "_header_") :
    r ∈ deleteWhereBrandCode table brandCode := by
  refine List.mem_filter.2 ⟨hr, ?_⟩
  rw [decide_eq_true_iff]
  intro hc
  rw [hsent] at hc
  exact hb (Option.some.inj hc).symm

/-- Witness for C9: the sentinel row survives a delete for brand `"GS"`. -/
theorem claim_C9_witness :
    [("_brand_code", "_header_")] ∈
      deleteWhereBrandCode [[("_brand_code", "_header_")], [("_brand_code", "GS")]] "GS" :=
  claim_C9_sentinel_survives
    [[("_brand_code", "_header_")], [("_brand_code", "GS")]] "GS"
    [("_brand_code", "_header_")] (by decide) (by decide) (by decide)

/-- The delete retry loop returns `ok 0` whenever every attempt hits the
rate limit. -/
theorem deleteBrandDataGo_rateLimit (l : List DeleteAttempt)
    (hall : ∀ a ∈ l, a = DeleteAttempt.rateLimit) :
    deleteBrandDataGo l = Except.ok 0 := by
  induction l with
  | nil => rfl
  | cons a rest ih =>
    have ha := hall a (List.mem_cons_self a rest)
    subst ha
    exact ih (fun b hb => hall b (List.mem_cons_of_mem _ hb))

/-- C5 counterexample: with all five delete attempts rate-limited (retries
exhausted), `delete_brand_data` returns `ok 0` — no error is surfaced — and
`upload` still executes the insert of the prepared rows; the import is not
failed. -/
theorem claim_C5_counterexample :
    delete_brand_data (List.replicate 5 DeleteAttempt.rateLimit) 5 = Except.ok 0 ∧
    uploadSnapshotRun (List.replicate 5 DeleteAttempt.rateLimit)
        (ParsedFileData.mk ["h"] [[("h", "v")]] 1 0 [] false ["h"]) "GS" true
      = ⟨true, 1, 0⟩ :=
  ⟨rfl, by decide⟩

/-- C5 (amended): when the bounded backoff retries of the per-brand delete
are exhausted by rate-limit errors, the error is only logged:
`delete_brand_data` returns 0 deleted rows instead of raising, and the
enclosing `upload` proceeds to insert the new batch. -/
theorem claim_C5_amended (attempts : List DeleteAttempt)
    (hall : ∀ a ∈ attempts, a = DeleteAttempt.rateLimit) :
    delete_brand_data attempts 5 = Except.ok 0 ∧
    ∀ (pf : ParsedFileData) (brandCode : String) (headerRowExists : Bool),
      (uploadSnapshotRun attempts pf brandCode headerRowExists).insertExecuted = true ∧
      (uploadSnapshotRun attempts pf brandCode headerRowExists).deletedRows = 0 := by
  have hdel : delete_brand_data attempts 5 = Except.ok 0 :=
    deleteBrandDataGo_rateLimit _ (fun a ha => hall a (List.mem_of_mem_take ha))
  refine ⟨hdel, fun pf brandCode headerRowExists => ?_⟩
  simp [uploadSnapshotRun, hdel]

/-- Witness for C5 (amended) at five rate-limited attempts. -/
theorem claim_C5_amended_witness :
    delete_brand_data (List.replicate 5 DeleteAttempt.rateLimit) 5 = Except.ok 0 ∧
    (uploadSnapshotRun (List.replicate 5 DeleteAttempt.rateLimit)
        (ParsedFileData.mk ["h"] [[("h", "v")]] 1 0 [] false ["h"]) "GS" false).insertExecuted
      = true :=
  ⟨(claim_C5_amended _ (by decide)).1,
    ((claim_C5_amended _ (by decide)).2
      (ParsedFileData.mk ["h"] [[("h", "v")]] 1 0 [] false ["h"]) "GS" false).1⟩

/-- C8: when a canonical schema is configured and the column mapping engine
raises, `parse_file` falls back to the unmapped 1:1 pass-through: the result
is identical to the no-schema path, `column_mapped` is false, the exception
is not surfaced in `errors`, each source header becomes its own output
header, and one output row is produced per blank-filtered row. -/
theorem claim_C8_mapping_fallback (headers : List String)
    (rawRows : List (List (Option String))) (msg : String) :
    parseFileCore headers rawRows true (Except.error msg)
      = parseFileCore headers rawRows false (Except.error msg) ∧
    (parseFileCore headers rawRows true (Except.error msg)).column_mapped = false ∧
    (parseFileCore headers rawRows true (Except.error msg)).errors = [] ∧
    (parseFileCore headers rawRows true (Except.error msg)).headers
      = uniquify (headers.map clean_header) ∧
    (parseFileCore headers rawRows true (Except.error msg)).rows.length
      = (rawRows.filter (fun r => ¬ isBlankRow r = true)).length := by
  refine ⟨rfl, rfl, rfl, rfl, ?_⟩
  simp [parseFileCore, finalRows, parseRawData]

/-- C1 (code bug): `parse_number` matches the spec's test table on the
Indonesian-format, thousands-comma and dash inputs, but returns `None` on
the documented standard format `"1,234,567.89"`: with one dot and two
commas it rewrites every comma to a dot, producing `"1.234.567.89"`, which
`Decimal` rejects. -/
theorem claim_C1_parse_number_table :
    parse_number "1.234.567,89" = some (mkRat 123456789 100) ∧
    parse_number "1,234" = some (mkRat 1234 1) ∧
    parse_number "-" = none ∧
    parse_number "1,234,567.89" = none := by decide

/-- C2 counterexample: the generic headers `"Name N"`/`"Image N"` of the
spec's example match none of the patterns `detect_dynamic_headers`
recognizes (`nama/foto variasi N`, `option N name/image`), so only the
special size-guide header is detected. -/
theorem claim_C2_counterexample :
    detect_dynamic_headers ["Name 2", "Image 1", "Size Guide Photo", "Name 1"]
      = ["Size Guide Photo"] ∧
    ¬ detect_dynamic_headers ["Name 2", "Image 1", "Size Guide Photo", "Name 1"]
      = ["Size Guide Photo", "Name 1", "Image 1", "Name 2"] := by decide

/-- C2 (amended): on headers written in the recognized localized patterns,
`detect_dynamic_headers` returns the special header first, then name/image
pairs in ascending numeric-suffix order with one-sided numbers included. -/
theorem claim_C2_amended :
    detect_dynamic_headers
        ["Nama Variasi 2", "Foto Variasi 1", "Size Guide Photo", "Nama Variasi 1"]
      = ["Size Guide Photo", "Nama Variasi 1", "Foto Variasi 1", "Nama Variasi 2"] ∧
    detect_dynamic_headers ["Option 2 Name", "Option 1 Image", "Option 1 Name"]
      = ["Option 1 Name", "Option 1 Image", "Option 2 Name"] := by decide

/-- C3 counterexample: `apply_sum_starts_with` does not apply `parse_number`
to the matching cells — on the cell `"10.5"` it first deletes the dot and
sums 105, while the spec-described `parse_number`-based scan yields 10.5. -/
theorem claim_C3_counterexample :
    apply_sum_starts_with [some "10.5"] [("qty a", [0])] ["Qty"] = "105" ∧
    applySumSpecParse [some "10.5"] [("qty a", [0])] ["Qty"] = "10.5" ∧
    parse_number "10.5" = some (mkRat 21 2) ∧
    ¬ ("105" : String) = "10.5" := by decide

theorem qAddList_append (t : ℚ) (l₁ l₂ : List ℚ) :
    qAddList t (l₁ ++ l₂) = qAddList (qAddList t l₁) l₂ := by
  simp [qAddList, List.foldl_append]

theorem notEmpty_append {α : Type} (l₁ l₂ : List α) :
    (!(l₁ ++ l₂).isEmpty) = (!l₁.isEmpty || !l₂.isEmpty) := by
  cases l₁ <;> simp

/-- Folding `sumStepCell` over a list of column indices accumulates exactly
the contributions of those cells and raises the found flag iff one of them
contributed. -/
theorem sumFoldCell (row : List (Option String)) :
    ∀ (indices : List Nat) (t : ℚ) (f : Bool),
      indices.foldl (sumStepCell row) (t, f) =
        (qAddList t (indices.filterMap (fun idx => (row.get? idx).bind cellContrib)),
          f || !(indices.filterMap (fun idx => (row.get? idx).bind cellContrib)).isEmpty) := by
  intro indices
  induction indices with
  | nil => intro t f; simp [qAddList]
  | cons idx rest ih =>
    intro t f
    simp only [List.foldl_cons, List.filterMap_cons]
    cases hbind : (row.get? idx).bind cellContrib with
    | none =>
      simp only [sumStepCell, hbind]
      exact ih t f
    | some v =>
      simp only [sumStepCell, hbind]
      rw [ih (qAdd t v) true]
      simp [qAddList]

/-- Folding `sumStepKey` over the header map accumulates the contributions
of every matching key, in scan order. -/
theorem sumFoldKey (row : List (Option String)) (pl : String) :
    ∀ (m : List (String × List Nat)) (t : ℚ) (f : Bool),
      m.foldl (sumStepKey row pl) (t, f) =
        (qAddList t ((m.map (fun kv =>
            if strStartsWithL kv.1 pl then
              kv.2.filterMap (fun idx => (row.get? idx).bind cellContrib)
            else [])).flatten),
          f || !((m.map (fun kv =>
            if strStartsWithL kv.1 pl then
              kv.2.filterMap (fun idx => (row.get? idx).bind cellContrib)
            else [])).flatten).isEmpty) := by
  intro m
  induction m with
  | nil => intro t f; simp [qAddList]
  | cons kv rest ih =>
    intro t f
    simp only [List.foldl_cons, List.map_cons, List.flatten_cons]
    by_cases hsw : strStartsWithL kv.1 pl = true
    · simp only [sumStepKey, if_pos hsw]
      rw [sumFoldCell row kv.2 t f]
      rw [ih]
      rw [qAddList_append, notEmpty_append]
      simp [Bool.or_assoc]
    · simp only [sumStepKey, if_neg hsw]
      rw [ih]
      simp [Bool.not_eq_true] at hsw
      simp [hsw]

/-- Folding over the patterns accumulates `sumContributions` in full. -/
theorem sumFoldPatterns (row : List (Option String)) (m : List (String × List Nat)) :
    ∀ (patterns : List String) (t : ℚ) (f : Bool),
      patterns.foldl
          (fun acc pattern => m.foldl (sumStepKey row (normalize_header pattern)) acc) (t, f) =
        (qAddList t (sumContributionsWith cellContrib row m patterns),
          f || !(sumContributionsWith cellContrib row m patterns).isEmpty) := by
  intro patterns
  induction patterns with
  | nil => intro t f; simp [qAddList, sumContributionsWith]
  | cons p ps ih =>
    intro t f
    simp only [List.foldl_cons]
    rw [sumFoldKey row (normalize_header p) m t f, ih]
    simp only [sumContributionsWith, List.map_cons, List.flatten_cons]
    rw [qAddList_append, notEmpty_append]
    simp [Bool.or_assoc]

/-- C3 (amended): for every data row, `SUM_STARTS_WITH` scans the original
header index for all keys starting with a configured prefix, parses each
matching raw cell with the rule's own normalization (drop dots, comma to
dot, parse as float — not `parse_number`), skipping blanks, sentinels and
unparsable values; it emits the total (integer formatting when whole,
decimal otherwise) when at least one cell contributed, else the empty
string.  The spec's two examples are included. -/
theorem claim_C3_amended (sourceRow : List (Option String))
    (sourceHeaderMap : List (String × List Nat)) (patterns : List String) :
    apply_sum_starts_with sourceRow sourceHeaderMap patterns =
      (if sumContributions sourceRow sourceHeaderMap patterns = [] then ""
        else renderPyNum (qSum (sumContributions sourceRow sourceHeaderMap patterns))) ∧
    apply_sum_starts_with [some "10", some "-"] [("qty a", [0]), ("qty b", [1])] ["Qty"]
      = "10" ∧
    apply_sum_starts_with [some "x", some "y"] [("qty a", [0]), ("qty b", [1])] ["Qty"]
      = "" := by
  refine ⟨?_, by decide, by decide⟩
  unfold apply_sum_starts_with
  rw [sumFoldPatterns sourceRow sourceHeaderMap patterns (natQ 0) false]
  rw [show sumContributionsWith cellContrib sourceRow sourceHeaderMap patterns
      = sumContributions sourceRow sourceHeaderMap patterns from rfl]
  cases hcs : sumContributions sourceRow sourceHeaderMap patterns with
  | nil => simp
  | cons c cs => simp [qSum]

/-! ## The no-double-claim invariant of the mapping pass -/

theorem hmIndices_cons (k : String) (v : List Nat) (rest : List (String × List Nat)) :
    hmIndices ((k, v) :: rest) = v ++ hmIndices rest := by
  simp [hmIndices]

theorem hmPop_perm :
    ∀ (m : List (String × List Nat)) (k : String) (i : Nat) (m' : List (String × List Nat)),
      hmPop m k = some (i, m') → List.Perm (hmIndices m) (i :: hmIndices m') := by
  intro m
  induction m with
  | nil => intro k i m' h; simp [hmPop] at h
  | cons kv rest ih =>
    intro k i m' h
    obtain ⟨k', v⟩ := kv
    simp only [hmPop] at h
    by_cases hk : k' = k
    · rw [if_pos hk] at h
      cases v with
      | nil => simp at h
      | cons i₀ v' =>
        simp only [Option.some.injEq, Prod.mk.injEq] at h
        obtain ⟨rfl, rfl⟩ := h
        rw [hmIndices_cons, hmIndices_cons]
        exact List.Perm.refl _
    · rw [if_neg hk] at h
      cases hrec : hmPop rest k with
      | none => rw [hrec] at h; simp at h
      | some pr =>
        obtain ⟨i₁, m₁⟩ := pr
        rw [hrec] at h
        simp only [Option.some.injEq, Prod.mk.injEq] at h
        obtain ⟨rfl, rfl⟩ := h
        have hperm := ih k i₁ m₁ hrec
        rw [hmIndices_cons, hmIndices_cons]
        exact List.Perm.trans (hperm.append_left v) List.perm_middle

theorem popFirstMatching_perm :
    ∀ (m : List (String × List Nat)) (p : String) (i : Nat) (m' : List (String × List Nat)),
      popFirstMatching m p = some (i, m') → List.Perm (hmIndices m) (i :: hmIndices m') := by
  intro m
  induction m with
  | nil => intro p i m' h; simp [popFirstMatching] at h
  | cons kv rest ih =>
    intro p i m' h
    obtain ⟨k, v⟩ := kv
    simp only [popFirstMatching] at h
    by_cases hc : strStartsWithL k p = true ∧ v ≠ []
    · rw [if_pos hc] at h
      cases v with
      | nil => exact absurd rfl hc.2
      | cons i₀ v' =>
        simp only [Option.some.injEq, Prod.mk.injEq] at h
        obtain ⟨rfl, rfl⟩ := h
        rw [hmIndices_cons, hmIndices_cons]
        exact List.Perm.refl _
    · rw [if_neg hc] at h
      cases hrec : popFirstMatching rest p with
      | none => rw [hrec] at h; simp at h
      | some pr =>
        obtain ⟨i₁, m₁⟩ := pr
        rw [hrec] at h
        simp only [Option.some.injEq, Prod.mk.injEq] at h
        obtain ⟨rfl, rfl⟩ := h
        have hperm := ih p i₁ m₁ hrec
        rw [hmIndices_cons, hmIndices_cons]
        exact List.Perm.trans (hperm.append_left v) List.perm_middle

theorem apply_coalesce_exact_perm (w : List (String × List Nat)) :
    ∀ (reps : List String) (i : Nat) (w' : List (String × List Nat)),
      apply_coalesce_exact w reps = some (i, w') → List.Perm (hmIndices w) (i :: hmIndices w') := by
  intro reps
  induction reps with
  | nil => intro i w' h; simp [apply_coalesce_exact] at h
  | cons r rs ih =>
    intro i w' h
    simp only [apply_coalesce_exact] at h
    cases hpop : hmPop w (normalize_header r) with
    | none => rw [hpop] at h; exact ih i w' h
    | some pr =>
      obtain ⟨i₁, m₁⟩ := pr
      rw [hpop] at h
      simp only [Option.some.injEq, Prod.mk.injEq] at h
      obtain ⟨rfl, rfl⟩ := h
      exact hmPop_perm w _ _ _ hpop

theorem apply_coalesce_starts_with_perm (w : List (String × List Nat)) :
    ∀ (pats : List String) (i : Nat) (w' : List (String × List Nat)),
      apply_coalesce_starts_with w pats = some (i, w') → List.Perm (hmIndices w) (i :: hmIndices w') := by
  intro pats
  induction pats with
  | nil => intro i w' h; simp [apply_coalesce_starts_with] at h
  | cons p ps ih =>
    intro i w' h
    simp only [apply_coalesce_starts_with] at h
    cases hpop : popFirstMatching w (normalize_header p) with
    | none => rw [hpop] at h; exact ih i w' h
    | some pr =>
      obtain ⟨i₁, m₁⟩ := pr
      rw [hpop] at h
      simp only [Option.some.injEq, Prod.mk.injEq] at h
      obtain ⟨rfl, rfl⟩ := h
      exact popFirstMatching_perm w _ _ _ hpop

theorem claimedIdx_cons (e : HeaderMapping) (rest : List HeaderMapping) :
    claimedIdx (e :: rest) =
      match e.source_idx with
      | some i => i :: claimedIdx rest
      | none => claimedIdx rest := by
  cases h : e.source_idx <;> simp [claimedIdx, h]

/-- Behaviour of one `resolveHeader` step: a claimed index is popped from
the working map (a permutation moves it out), an unclaimed step leaves the
working map untouched, and a `SUM_STARTS_WITH` rule never claims. -/
theorem resolveHeader_spec (rules : String → Option ColumnRule) (h : String)
    (working : List (String × List Nat)) :
    (∀ i, (resolveHeader rules h working).1.1 = some i →
      List.Perm (hmIndices working) (i :: hmIndices (resolveHeader rules h working).2)) ∧
    ((resolveHeader rules h working).1.1 = none →
      (resolveHeader rules h working).2 = working) ∧
    (∀ r, (resolveHeader rules h working).1.2 = some r →
      r.action = "SUM_STARTS_WITH" → (resolveHeader rules h working).1.1 = none) := by
  unfold resolveHeader
  split
  case _ i w' hpop =>
    refine ⟨fun j hj => ?_, fun hn => ?_, fun r hr => ?_⟩
    · obtain rfl : i = j := Option.some.inj hj
      exact hmPop_perm working _ _ _ hpop
    · exact absurd hn (by simp)
    · exact absurd hr (by simp)
  case _ hpop =>
    split
    case _ r hr =>
      by_cases hex : r.action = "COALESCE_EXACT"
      · rw [if_pos hex]
        split
        case _ i w' hce =>
          refine ⟨fun j hj => ?_, fun hn => ?_, fun r' hr' ha => ?_⟩
          · obtain rfl : i = j := Option.some.inj hj
            exact apply_coalesce_exact_perm working r.replacements _ _ hce
          · exact absurd hn (by simp)
          · obtain rfl : r = r' := Option.some.inj hr'
            rw [ha] at hex
            simp at hex
        case _ hce =>
          exact ⟨fun j hj => absurd hj (by simp), fun _ => rfl, fun r' hr' ha => rfl⟩
      · rw [if_neg hex]
        by_cases hsw : r.action = "COALESCE_STARTS_WITH"
        · rw [if_pos hsw]
          split
          case _ i w' hcs =>
            refine ⟨fun j hj => ?_, fun hn => ?_, fun r' hr' ha => ?_⟩
            · obtain rfl : i = j := Option.some.inj hj
              exact apply_coalesce_starts_with_perm working r.replacements _ _ hcs
            · exact absurd hn (by simp)
            · obtain rfl : r = r' := Option.some.inj hr'
              rw [ha] at hsw
              simp at hsw
          case _ hcs =>
            exact ⟨fun j hj => absurd hj (by simp), fun _ => rfl, fun r' hr' ha => rfl⟩
        · rw [if_neg hsw]
          exact ⟨fun j hj => absurd hj (by simp), fun _ => rfl, fun r' hr' ha => rfl⟩
    case _ hr =>
      exact ⟨fun j hj => absurd hj (by simp), fun _ => rfl, fun r hr' => absurd hr' (by simp)⟩

/-- The core invariant of a mapping pass: starting from a duplicate-free
working index, the claimed source indices are duplicate-free and all come
from the working index. -/
theorem calcMapping_claimed (rules : String → Option ColumnRule) :
    ∀ (hs : List String) (w : List (String × List Nat)),
      (hmIndices w).Nodup →
      (claimedIdx (calcMappingAux rules hs w)).Nodup ∧
        ∀ i ∈ claimedIdx (calcMappingAux rules hs w), i ∈ hmIndices w := by
  intro hs
  induction hs with
  | nil =>
    intro w hnd
    simp [calcMappingAux, claimedIdx]
  | cons h t ih =>
    intro w hnd
    have hres := resolveHeader_spec rules h w
    have hunfold : calcMappingAux rules (h :: t) w =
        ⟨h, (resolveHeader rules h w).1.1, (resolveHeader rules h w).1.2⟩ ::
          calcMappingAux rules t (resolveHeader rules h w).2 := rfl
    rw [hunfold]
    cases hidx : (resolveHeader rules h w).1.1 with
    | some i =>
      have hperm := hres.1 i hidx
      have hnd' : (i :: hmIndices (resolveHeader rules h w).2).Nodup :=
        hperm.nodup_iff.1 hnd
      obtain ⟨hni, hndw'⟩ := List.nodup_cons.1 hnd'
      obtain ⟨hndr, hsub⟩ := ih _ hndw'
      simp only [claimedIdx_cons]
      refine ⟨List.nodup_cons.2 ⟨fun hmem => hni (hsub i hmem), hndr⟩, ?_⟩
      intro j hj
      rcases List.mem_cons.1 hj with rfl | hj'
      · exact hperm.mem_iff.2 (List.mem_cons_self _ _)
      · exact hperm.mem_iff.2 (List.mem_cons_of_mem _ (hsub j hj'))
    | none =>
      have heqw := hres.2.1 hidx
      simp only [claimedIdx_cons]
      rw [heqw]
      exact ih w hnd

theorem hmAdd_perm (m : List (String × List Nat)) (k : String) (i : Nat) :
    List.Perm (hmIndices (hmAdd m k i)) (i :: hmIndices m) := by
  induction m with
  | nil => simp [hmAdd, hmIndices]
  | cons kv rest ih =>
    obtain ⟨k', v⟩ := kv
    simp only [hmAdd]
    by_cases hk : k' = k
    · rw [if_pos hk, hmIndices_cons, hmIndices_cons]
      have he : (v ++ [i]) ++ hmIndices rest = v ++ (i :: hmIndices rest) := by simp
      rw [he]
      exact List.perm_middle
    · rw [if_neg hk, hmIndices_cons, hmIndices_cons]
      exact List.Perm.trans (ih.append_left v) List.perm_middle

theorem buildAux_nodup :
    ∀ (hs : List String) (idx : Nat) (m : List (String × List Nat)),
      (hmIndices m).Nodup → (∀ j ∈ hmIndices m, j < idx) →
      (hmIndices (buildSourceHeaderMapAux hs idx m)).Nodup := by
  intro hs
  induction hs with
  | nil =>
    intro idx m hnd _
    simpa [buildSourceHeaderMapAux] using hnd
  | cons h t ih =>
    intro idx m hnd hbound
    simp only [buildSourceHeaderMapAux]
    by_cases hkey : normalize_header h = ""
    · rw [if_pos hkey]
      exact ih (idx + 1) m hnd (fun j hj => Nat.lt_succ_of_lt (hbound j hj))
    · rw [if_neg hkey]
      have hperm := hmAdd_perm m (normalize_header h) idx
      have hnotmem : ¬ idx ∈ hmIndices m := fun hmem => absurd (hbound idx hmem) (by omega)
      have hnd' : (hmIndices (hmAdd m (normalize_header h) idx)).Nodup :=
        hperm.nodup_iff.2 (List.nodup_cons.2 ⟨hnotmem, hnd⟩)
      have hbound' : ∀ j ∈ hmIndices (hmAdd m (normalize_header h) idx), j < idx + 1 := by
        intro j hj
        rcases List.mem_cons.1 (hperm.mem_iff.1 hj) with rfl | hj'
        · omega
        · exact Nat.lt_succ_of_lt (hbound j hj')
      exact ih (idx + 1) _ hnd' hbound'

theorem build_source_header_map_nodup (headers : List String) :
    (hmIndices (build_source_header_map headers)).Nodup :=
  buildAux_nodup headers 0 [] (by simp [hmIndices]) (by simp [hmIndices])

/-- A mapping entry carrying a `SUM_STARTS_WITH` rule never claims a source
column: its `source_idx` is `none`. -/
theorem calcMapping_sum_none (rules : String → Option ColumnRule) :
    ∀ (hs : List String) (w : List (String × List Nat)),
      ∀ m ∈ calcMappingAux rules hs w, ∀ r, m.rule = some r →
        r.action = "SUM_STARTS_WITH" → m.source_idx = none := by
  intro hs
  induction hs with
  | nil =>
    intro w m hm
    simp [calcMappingAux] at hm
  | cons h t ih =>
    intro w m hm r hrule haction
    have hunfold : calcMappingAux rules (h :: t) w =
        ⟨h, (resolveHeader rules h w).1.1, (resolveHeader rules h w).1.2⟩ ::
          calcMappingAux rules t (resolveHeader rules h w).2 := rfl
    rw [hunfold] at hm
    rcases List.mem_cons.1 hm with rfl | hm'
    · exact (resolveHeader_spec rules h w).2.2 r hrule haction
    · exact ih _ m hm' r hrule haction

/-- C6: within one mapping pass over any source header list, no source
column index is assigned to two different output headers — the indices
claimed by direct matches and COALESCE rules are pairwise distinct (each
claim removes the column from the working index) — and a `SUM_STARTS_WITH`
rule never claims a column (`_map_row` evaluates it against the unmodified
original index). -/
theorem claim_C6_no_double_claim (sourceHeaders outputHeaders : List String)
    (rules : String → Option ColumnRule) :
    (claimedIdx (calculate_mapping rules outputHeaders
        (build_source_header_map sourceHeaders))).Nodup ∧
    ∀ m ∈ calculate_mapping rules outputHeaders (build_source_header_map sourceHeaders),
      ∀ r, m.rule = some r → r.action = "SUM_STARTS_WITH" → m.source_idx = none :=
  ⟨(calcMapping_claimed rules outputHeaders _
      (build_source_header_map_nodup sourceHeaders)).1,
    fun m hm => calcMapping_sum_none rules outputHeaders _ m hm⟩

end InputSystem
